import Mathlib

set_option maxHeartbeats 1000000

/-! Shallow embedding of the ZenChain in-memory ledger (`src/ZC.py`).

Cryptographic digests are modelled by an explicit hash-function parameter
`H : BlockHashInput → String` for block hashes and `HT : TxHashInput → String`
for transaction hashes: the SHA-256 hex digest of the canonical JSON
serialization of the hashed fields is a deterministic function of exactly
those fields, and the properties that need collision resistance take
injectivity of `H` as an explicit hypothesis.  Wall-clock timestamps
(`time.time()`) are non-deterministic inputs and are passed in as explicit
parameters.  The unbounded proof-of-work loop of `Block.mine_block` is
given explicit fuel and returns `none` on exhaustion, so every definition
stays executable.  Python's `dict` used for `nft_collections` is modelled
as an association list with first-match lookup; the code only inserts a
key after checking it is absent, so keys stay unique and the two agree. -/

/-- The `nft_data` payloads actually constructed by `src/ZC.py`:
`{"action": "create", "nft_id": …, "name": …, "description": …}` from
`create_nft` and `{"action": "transfer", "nft_id": …}` from `transfer_nft`. -/
inductive NftData where
  | create (nft_id : String) (name : String) (description : String)
  | transfer (nft_id : String)
deriving DecidableEq

/-- A `Transaction` object: the five constructor fields plus the content
hash computed once at construction (`Transaction.__init__`).  `to_dict`
exposes exactly these six fields, so this structure also serves as the
dictionary representation hashed into a block. -/
structure Transaction where
  sender : Option String
  recipient : String
  amount : Int
  nft_data : Option NftData
  timestamp : Nat
  hash : String
deriving DecidableEq

/-- The fields serialized by `Transaction.calculate_hash` (all fields
except the hash itself). -/
structure TxHashInput where
  sender : Option String
  recipient : String
  amount : Int
  nft_data : Option NftData
  timestamp : Nat
deriving DecidableEq

/-- `Transaction.__init__`: store the fields and compute the content hash. -/
def mkTransaction (HT : TxHashInput → String) (sender : Option String) (recipient : String)
    (amount : Int) (nft_data : Option NftData) (timestamp : Nat) : Transaction :=
  { sender := sender, recipient := recipient, amount := amount, nft_data := nft_data,
    timestamp := timestamp, hash := HT ⟨sender, recipient, amount, nft_data, timestamp⟩ }

/-- A `Block` object: index, transactions, timestamp, previous hash, nonce
and the stored hash field. -/
structure Block where
  index : Nat
  transactions : List Transaction
  timestamp : Nat
  previous_hash : String
  nonce : Nat
  hash : String
deriving DecidableEq

/-- The fields serialized by `Block.calculate_hash`: index, the list of
transaction dictionaries (`tx.to_dict()`), timestamp, previous hash, nonce. -/
structure BlockHashInput where
  index : Nat
  transactions : List Transaction
  timestamp : Nat
  previous_hash : String
  nonce : Nat
deriving DecidableEq

def Block.hashInput (b : Block) : BlockHashInput :=
  ⟨b.index, b.transactions, b.timestamp, b.previous_hash, b.nonce⟩

/-- `Block.calculate_hash`: digest of the five non-hash fields. -/
def calculate_hash (H : BlockHashInput → String) (b : Block) : String :=
  H b.hashInput

/-- `Block.__init__`: store the fields and compute the initial hash
(the Python constructor defaults `nonce` to `0`; both call sites use
that default). -/
def mkBlock (H : BlockHashInput → String) (index : Nat) (transactions : List Transaction)
    (timestamp : Nat) (previous_hash : String) (nonce : Nat) : Block :=
  { index := index, transactions := transactions, timestamp := timestamp,
    previous_hash := previous_hash, nonce := nonce,
    hash := H ⟨index, transactions, timestamp, previous_hash, nonce⟩ }

/-- `'0' * difficulty`. -/
def zeroPrefix (D : Nat) : List Char := List.replicate D '0'

/-- `self.hash[:difficulty] == '0' * difficulty` (on the character list of
the hash; Python slicing truncates exactly like `List.take`). -/
def hashMeetsDifficulty (h : String) (D : Nat) : Bool :=
  decide (h.data.take D = zeroPrefix D)

/-- One iteration of the mining loop body: `self.nonce += 1; self.hash =
self.calculate_hash()`. -/
def mineStep (H : BlockHashInput → String) (b : Block) : Block :=
  { b with nonce := b.nonce + 1,
           hash := H ⟨b.index, b.transactions, b.timestamp, b.previous_hash, b.nonce + 1⟩ }

/-- `Block.mine_block`: loop while the stored hash does not start with
`difficulty` zero characters.  Fuel bounds the number of loop iterations;
`none` means the bound was hit before a solution appeared. -/
def mine_block (H : BlockHashInput → String) (difficulty : Nat) : Nat → Block → Option Block
  | 0, b => if hashMeetsDifficulty b.hash difficulty then some b else none
  | fuel + 1, b =>
    if hashMeetsDifficulty b.hash difficulty then some b
    else mine_block H difficulty fuel (mineStep H b)

/-- One registry entry of `nft_collections`:
`{"owner": …, "name": …, "description": …, "created_at": …}`. -/
structure NftEntry where
  owner : String
  name : String
  description : String
  created_at : Nat
deriving DecidableEq

/-- The `ZenChain` object state. -/
structure ZenChain where
  chain : List Block
  difficulty : Nat
  pending_transactions : List Transaction
  mining_reward : Int
  nft_collections : List (String × NftEntry)
deriving DecidableEq

/-- `ZenChain.create_genesis_block`: `Block(0, [], time.time(), "0")`. -/
def create_genesis_block (H : BlockHashInput → String) (ts : Nat) : Block :=
  mkBlock H 0 [] ts "0" 0

/-- `ZenChain.__init__`. -/
def ZenChain.init (H : BlockHashInput → String) (ts : Nat) : ZenChain :=
  { chain := [create_genesis_block H ts], difficulty := 2, pending_transactions := [],
    mining_reward := 100, nft_collections := [] }

/-- `ZenChain.get_latest_block`: `self.chain[-1]` (`none` on an empty
chain, where Python would raise). -/
def get_latest_block (st : ZenChain) : Option Block := st.chain.getLast?

/-- `ZenChain.create_transaction`: unconditional append to the pool. -/
def create_transaction (st : ZenChain) (t : Transaction) : ZenChain :=
  { st with pending_transactions := st.pending_transactions ++ [t] }

/-- `ZenChain.mine_pending_transactions`: build the block at index
`len(chain)` from the whole pending pool, linked to the head's hash; mine
it; append it; reset the pool to the single reward transaction. -/
def mine_pending_transactions (H : BlockHashInput → String) (HT : TxHashInput → String)
    (fuel : Nat) (tb tt : Nat) (mining_reward_address : String) (st : ZenChain) :
    Option ZenChain :=
  match get_latest_block st with
  | none => none
  | some latest =>
    match mine_block H st.difficulty fuel
        (mkBlock H st.chain.length st.pending_transactions tb latest.hash 0) with
    | none => none
    | some mined =>
      some { st with
        chain := st.chain ++ [mined],
        pending_transactions :=
          [mkTransaction HT none mining_reward_address st.mining_reward none tt] }

/-- `ZenChain.get_balance`: fold over every committed block's transactions,
subtracting the amount when the address is the sender and adding it when
the address is the recipient (both tests are independent `if`s). -/
def get_balance (st : ZenChain) (address : String) : Int :=
  st.chain.foldl (fun bal b =>
    b.transactions.foldl (fun bal2 t =>
      let bal3 := if t.sender = some address then bal2 - t.amount else bal2
      if t.recipient = address then bal3 + t.amount else bal3) bal) 0

/-- The loop body of `ZenChain.is_chain_valid` running over `chain[1:]`,
carrying the preceding block. -/
def validFrom (H : BlockHashInput → String) : Block → List Block → Bool
  | _, [] => true
  | prev, b :: rest =>
    if b.hash ≠ calculate_hash H b then false
    else if b.previous_hash ≠ prev.hash then false
    else validFrom H b rest

/-- `ZenChain.is_chain_valid` as a function of the chain alone (the method
reads no other state). -/
def validChain (H : BlockHashInput → String) : List Block → Bool
  | [] => true
  | g :: rest => validFrom H g rest

/-- `ZenChain.is_chain_valid`. -/
def is_chain_valid (H : BlockHashInput → String) (st : ZenChain) : Bool :=
  validChain H st.chain

/-- First-match association-list lookup, the model of Python `dict`
indexing/membership for `nft_collections`. -/
def lookupNft : List (String × NftEntry) → String → Option NftEntry
  | [], _ => none
  | (k, v) :: rest, nft_id => if k = nft_id then some v else lookupNft rest nft_id

/-- `ZenChain.create_nft`. -/
def create_nft (HT : TxHashInput → String) (tsEntry tsTx : Nat) (st : ZenChain)
    (owner_address nft_id nft_name nft_description : String) : Bool × ZenChain :=
  if (lookupNft st.nft_collections nft_id).isSome then (false, st)
  else
    (true, create_transaction
      { st with nft_collections :=
          st.nft_collections ++ [(nft_id, ⟨owner_address, nft_name, nft_description, tsEntry⟩)] }
      (mkTransaction HT none owner_address 0
        (some (NftData.create nft_id nft_name nft_description)) tsTx))

/-- `self.nft_collections[nft_id]["owner"] = recipient`: in-place owner
update of the (unique) entry with the given key. -/
def setOwner : List (String × NftEntry) → String → String → List (String × NftEntry)
  | [], _, _ => []
  | (k, v) :: rest, nft_id, recipient =>
    if k = nft_id then (k, { v with owner := recipient }) :: rest
    else (k, v) :: setOwner rest nft_id recipient

/-- `ZenChain.transfer_nft`. -/
def transfer_nft (HT : TxHashInput → String) (tsTx : Nat) (st : ZenChain)
    (sender recipient nft_id : String) : Bool × ZenChain :=
  match lookupNft st.nft_collections nft_id with
  | none => (false, st)
  | some entry =>
    if entry.owner ≠ sender then (false, st)
    else
      (true, create_transaction
        { st with nft_collections := setOwner st.nft_collections nft_id recipient }
        (mkTransaction HT (some sender) recipient 0 (some (NftData.transfer nft_id)) tsTx))

/-- States reachable from a freshly constructed ledger by the public
operations, for arbitrary caller-chosen inputs, timestamps and fuel. -/
inductive Reachable (H : BlockHashInput → String) (HT : TxHashInput → String) :
    ZenChain → Prop where
  | init (ts : Nat) : Reachable H HT (ZenChain.init H ts)
  | createTx {st : ZenChain} (t : Transaction) :
      Reachable H HT st → Reachable H HT (create_transaction st t)
  | mine {st st' : ZenChain} (fuel tb tt : Nat) (addr : String) :
      Reachable H HT st →
      mine_pending_transactions H HT fuel tb tt addr st = some st' →
      Reachable H HT st'
  | createNft {st : ZenChain} (ts1 ts2 : Nat) (owner nft_id nm descr : String) :
      Reachable H HT st →
      Reachable H HT (create_nft HT ts1 ts2 st owner nft_id nm descr).2
  | transferNft {st : ZenChain} (ts : Nat) (sender recipient nft_id : String) :
      Reachable H HT st →
      Reachable H HT (transfer_nft HT ts st sender recipient nft_id).2

/-- Replace the element at one position, identity out of range. -/
def modifyAt {α : Type} (f : α → α) : List α → Nat → List α
  | [], _ => []
  | a :: l, 0 => f a :: l
  | a :: l, i + 1 => a :: modifyAt f l i

/-- Overwrite a transaction's amount, leaving every other field alone. -/
def setAmount (amt : Int) (t : Transaction) : Transaction := { t with amount := amt }

/-- Mutate the amount of transaction `j` of block `i` of a chain, without
re-mining anything. -/
def tamperAmount (c : List Block) (i j : Nat) (amt : Int) : List Block :=
  modifyAt (fun b => { b with transactions := modifyAt (setAmount amt) b.transactions j }) c i

/-- All transactions of all committed blocks, in block order then list
order. -/
def committedTxs (st : ZenChain) : List Transaction :=
  st.chain.foldr (fun b acc => b.transactions ++ acc) []

/-- Spec-side signed contribution of one committed transaction to an
address's balance: the amount is added when the address is the recipient
and subtracted when it is the sender. -/
def specContribution (address : String) (t : Transaction) : Int :=
  (if t.recipient = address then t.amount else 0) -
    (if t.sender = some address then t.amount else 0)

/-! ### Helper lemmas about mining -/

theorem mineStep_hash_inv (H : BlockHashInput → String) (b : Block) :
    (mineStep H b).hash = calculate_hash H (mineStep H b) := rfl

theorem mineStep_frame (H : BlockHashInput → String) (b : Block) :
    (mineStep H b).index = b.index ∧ (mineStep H b).transactions = b.transactions ∧
    (mineStep H b).timestamp = b.timestamp ∧ (mineStep H b).previous_hash = b.previous_hash :=
  ⟨rfl, rfl, rfl, rfl⟩

theorem mine_block_spec (H : BlockHashInput → String) (D : Nat) :
    ∀ (fuel : Nat) (b b' : Block), mine_block H D fuel b = some b' →
      hashMeetsDifficulty b'.hash D = true ∧
      b'.index = b.index ∧ b'.transactions = b.transactions ∧
      b'.timestamp = b.timestamp ∧ b'.previous_hash = b.previous_hash ∧
      (b.hash = calculate_hash H b → b'.hash = calculate_hash H b') := by
  intro fuel
  induction fuel with
  | zero =>
    intro b b' h
    simp only [mine_block] at h
    by_cases hd : hashMeetsDifficulty b.hash D = true
    · rw [if_pos hd] at h
      cases h
      exact ⟨hd, rfl, rfl, rfl, rfl, fun hinv => hinv⟩
    · rw [if_neg hd] at h
      cases h
  | succ fuel ih =>
    intro b b' h
    simp only [mine_block] at h
    by_cases hd : hashMeetsDifficulty b.hash D = true
    · rw [if_pos hd] at h
      cases h
      exact ⟨hd, rfl, rfl, rfl, rfl, fun hinv => hinv⟩
    · rw [if_neg hd] at h
      obtain ⟨h1, h2, h3, h4, h5, h6⟩ := ih (mineStep H b) b' h
      exact ⟨h1, h2, h3, h4, h5, fun _ => h6 (mineStep_hash_inv H b)⟩

theorem mine_block_zero_difficulty (H : BlockHashInput → String) (fuel : Nat) (b : Block) :
    mine_block H 0 fuel b = some b := by
  have hd : hashMeetsDifficulty b.hash 0 = true := by
    simp [hashMeetsDifficulty, zeroPrefix]
  cases fuel with
  | zero => rw [mine_block, if_pos hd]
  | succ fuel => rw [mine_block, if_pos hd]

/-! ### Helper lemmas about the validity scan -/

theorem validFrom_cons (H : BlockHashInput → String) (prev b : Block) (rest : List Block) :
    validFrom H prev (b :: rest) = true ↔
      b.hash = calculate_hash H b ∧ b.previous_hash = prev.hash ∧
      validFrom H b rest = true := by
  rw [validFrom]
  by_cases h1 : b.hash = calculate_hash H b
  · rw [if_neg (by simpa using h1)]
    by_cases h2 : b.previous_hash = prev.hash
    · rw [if_neg (by simpa using h2)]
      simp [h1, h2]
    · rw [if_pos (by simpa using h2)]
      simp [h1, h2]
  · rw [if_pos (by simpa using h1)]
    simp [h1]

theorem validFrom_get_iff (H : BlockHashInput → String) :
    ∀ (rest : List Block) (prev : Block),
      validFrom H prev rest = true ↔
        ∀ i (h : i < rest.length),
          (rest.get ⟨i, h⟩).hash = calculate_hash H (rest.get ⟨i, h⟩) ∧
          (rest.get ⟨i, h⟩).previous_hash =
            ((prev :: rest).get ⟨i, Nat.lt_succ_of_lt h⟩).hash := by
  intro rest
  induction rest with
  | nil =>
    intro prev
    simp [validFrom]
  | cons b bs ih =>
    intro prev
    rw [validFrom_cons, ih b]
    constructor
    · rintro ⟨h1, h2, h3⟩ i hi
      match i with
      | 0 => exact ⟨h1, h2⟩
      | k + 1 =>
        have hk : k < bs.length := by simpa using hi
        have := h3 k hk
        simpa using this
    · intro hall
      refine ⟨(hall 0 (by simp)).1, (hall 0 (by simp)).2, ?_⟩
      intro k hk
      have := hall (k + 1) (by simpa using hk)
      simpa using this

/-- The last block of a nonempty chain `g :: rest`. -/
def lastOf (g : Block) (rest : List Block) : Block := rest.getLast?.getD g

theorem getLast?_cons_eq (g : Block) (rest : List Block) :
    (g :: rest).getLast? = some (lastOf g rest) := by
  simp [lastOf, List.getLast?_cons]

theorem validFrom_append (H : BlockHashInput → String) :
    ∀ (rest : List Block) (g b : Block),
      validFrom H g rest = true →
      b.hash = calculate_hash H b →
      b.previous_hash = (lastOf g rest).hash →
      validFrom H g (rest ++ [b]) = true := by
  intro rest
  induction rest with
  | nil =>
    intro g b _ hb hl
    have hlast : lastOf g [] = g := rfl
    rw [hlast] at hl
    rw [List.nil_append, validFrom_cons]
    exact ⟨hb, hl, rfl⟩
  | cons r rs ih =>
    intro g b hv hb hl
    rw [validFrom_cons] at hv
    obtain ⟨h1, h2, h3⟩ := hv
    have hlast : lastOf g (r :: rs) = lastOf r rs := by
      simp [lastOf, List.getLast?_cons]
    rw [hlast] at hl
    rw [List.cons_append, validFrom_cons]
    exact ⟨h1, h2, ih r b h3 hb hl⟩

theorem is_chain_valid_iff (H : BlockHashInput → String) (st : ZenChain) :
    is_chain_valid H st = true ↔
      ∀ i (hi : i + 1 < st.chain.length),
        (st.chain.get ⟨i + 1, hi⟩).hash = calculate_hash H (st.chain.get ⟨i + 1, hi⟩) ∧
        (st.chain.get ⟨i + 1, hi⟩).previous_hash =
          (st.chain.get ⟨i, Nat.lt_of_succ_lt hi⟩).hash := by
  rw [is_chain_valid]
  cases hc : st.chain with
  | nil =>
    simp [validChain]
  | cons g rest =>
    rw [validChain, validFrom_get_iff H rest g]
    constructor
    · intro hall i hi
      have hi2 : i < rest.length := by simpa using hi
      have := hall i hi2
      simpa using this
    · intro hall i hi
      have hi2 : i + 1 < (g :: rest).length := by simpa using hi
      have := hall i hi2
      simpa using this

/-! ### The chain of every reachable state is valid -/

theorem create_transaction_chain (st : ZenChain) (t : Transaction) :
    (create_transaction st t).chain = st.chain := rfl

theorem create_nft_chain (HT : TxHashInput → String) (ts1 ts2 : Nat) (st : ZenChain)
    (owner nft_id nm descr : String) :
    (create_nft HT ts1 ts2 st owner nft_id nm descr).2.chain = st.chain := by
  rw [create_nft]
  by_cases h : (lookupNft st.nft_collections nft_id).isSome
  · rw [if_pos h]
  · rw [if_neg h]
    rfl

theorem transfer_nft_chain (HT : TxHashInput → String) (ts : Nat) (st : ZenChain)
    (sender recipient nft_id : String) :
    (transfer_nft HT ts st sender recipient nft_id).2.chain = st.chain := by
  rw [transfer_nft]
  split
  · rfl
  · split
    · rfl
    · rfl

theorem mine_pending_spec (H : BlockHashInput → String) (HT : TxHashInput → String)
    (fuel tb tt : Nat) (R : String) (st st' : ZenChain)
    (h : mine_pending_transactions H HT fuel tb tt R st = some st') :
    ∃ latest mined,
      get_latest_block st = some latest ∧
      mine_block H st.difficulty fuel
        (mkBlock H st.chain.length st.pending_transactions tb latest.hash 0) = some mined ∧
      st' = { st with
        chain := st.chain ++ [mined],
        pending_transactions := [mkTransaction HT none R st.mining_reward none tt] } := by
  rw [mine_pending_transactions] at h
  cases hl : get_latest_block st with
  | none => rw [hl] at h; cases h
  | some latest =>
    rw [hl] at h
    dsimp only at h
    cases hm : mine_block H st.difficulty fuel
        (mkBlock H st.chain.length st.pending_transactions tb latest.hash 0) with
    | none => rw [hm] at h; cases h
    | some mined =>
      rw [hm] at h
      dsimp only at h
      cases h
      exact ⟨latest, mined, rfl, hm, rfl⟩

theorem reachable_chain_valid (H : BlockHashInput → String) (HT : TxHashInput → String)
    (st : ZenChain) (h : Reachable H HT st) :
    st.chain ≠ [] ∧ is_chain_valid H st = true := by
  induction h with
  | init ts =>
    constructor
    · simp [ZenChain.init]
    · rfl
  | createTx t _ ih =>
    exact ⟨by rw [create_transaction_chain]; exact ih.1,
           by rw [is_chain_valid, create_transaction_chain]; exact ih.2⟩
  | @mine st st' fuel tb tt addr _ hm ih =>
    obtain ⟨latest, mined, hl, hmine, hst'⟩ := mine_pending_spec _ _ _ _ _ _ _ _ hm
    obtain ⟨hne, hvalid⟩ := ih
    subst hst'
    refine ⟨by simp, ?_⟩
    obtain ⟨g, rest, hc⟩ : ∃ g rest, st.chain = g :: rest := by
      cases hcc : st.chain with
      | nil => exact absurd hcc hne
      | cons g rest => exact ⟨g, rest, rfl⟩
    obtain ⟨hdiff, hidx, htxs, hts, hprev, hhash⟩ := mine_block_spec H st.difficulty fuel _ _ hmine
    have hminv : mined.hash = calculate_hash H mined := hhash rfl
    have hlatest : latest = lastOf g rest := by
      rw [get_latest_block, hc, getLast?_cons_eq] at hl
      exact (Option.some.injEq _ _ ▸ hl).symm
    have hprev2 : mined.previous_hash = (lastOf g rest).hash := by
      rw [hprev, ← hlatest]
      rfl
    rw [is_chain_valid] at hvalid ⊢
    simp only [hc] at hvalid ⊢
    rw [validChain] at hvalid
    rw [List.cons_append, validChain]
    exact validFrom_append H rest g mined hvalid hminv hprev2
  | createNft ts1 ts2 owner nft_id nm descr _ ih =>
    exact ⟨by rw [create_nft_chain]; exact ih.1,
           by rw [is_chain_valid, create_nft_chain]; exact ih.2⟩
  | transferNft ts sender recipient nft_id _ ih =>
    exact ⟨by rw [transfer_nft_chain]; exact ih.1,
           by rw [is_chain_valid, transfer_nft_chain]; exact ih.2⟩

/-! ### Helper lemmas about `modifyAt` -/

theorem length_modifyAt {α : Type} (f : α → α) :
    ∀ (l : List α) (i : Nat), (modifyAt f l i).length = l.length := by
  intro l
  induction l with
  | nil => intro i; rfl
  | cons a l ih =>
    intro i
    cases i with
    | zero => rfl
    | succ i => simp [modifyAt, ih i]

theorem get_modifyAt {α : Type} (f : α → α) :
    ∀ (l : List α) (i j : Nat) (h : j < (modifyAt f l i).length) (h' : j < l.length),
      (modifyAt f l i).get ⟨j, h⟩ =
        if j = i then f (l.get ⟨j, h'⟩) else l.get ⟨j, h'⟩ := by
  intro l
  induction l with
  | nil => intro i j h h'; cases h'
  | cons a l ih =>
    intro i j h h'
    cases i with
    | zero =>
      cases j with
      | zero => rfl
      | succ j => simp [modifyAt]
    | succ i =>
      cases j with
      | zero => simp [modifyAt]
      | succ j =>
        have hj : j < (modifyAt f l i).length := by
          have := h
          simp only [modifyAt, List.length_cons] at this
          omega
        have hj' : j < l.length := by simpa using h'
        simp only [modifyAt, List.get_cons_succ]
        rw [ih i j hj hj']
        by_cases hc : j = i
        · rw [if_pos hc, if_pos (by omega)]
        · rw [if_neg hc, if_neg (by omega)]

/-! ### Helper lemmas about balances -/

theorem foldl_balance_txs (address : String) :
    ∀ (txs : List Transaction) (bal : Int),
      txs.foldl (fun bal2 t =>
        let bal3 := if t.sender = some address then bal2 - t.amount else bal2
        if t.recipient = address then bal3 + t.amount else bal3) bal =
      bal + ((txs.map (specContribution address)).sum) := by
  intro txs
  induction txs with
  | nil => intro bal; simp
  | cons t ts ih =>
    intro bal
    rw [List.foldl_cons, ih, List.map_cons, List.sum_cons]
    have hstep : (let bal3 := if t.sender = some address then bal - t.amount else bal
        if t.recipient = address then bal3 + t.amount else bal3) =
        bal + specContribution address t := by
      rw [specContribution]
      by_cases h1 : t.sender = some address
      · by_cases h2 : t.recipient = address
        · simp only [h1, h2, if_pos rfl, if_true]
          ring
        · simp only [if_pos h1, if_neg h2]
          ring
      · by_cases h2 : t.recipient = address
        · simp only [if_neg h1, if_pos h2]
          ring
        · simp only [if_neg h1, if_neg h2]
          ring
    rw [hstep]
    ring

theorem get_balance_eq_sum (st : ZenChain) (address : String) :
    get_balance st address = ((committedTxs st).map (specContribution address)).sum := by
  rw [get_balance, committedTxs]
  have main : ∀ (c : List Block) (bal : Int),
      c.foldl (fun bal b =>
        b.transactions.foldl (fun bal2 t =>
          let bal3 := if t.sender = some address then bal2 - t.amount else bal2
          if t.recipient = address then bal3 + t.amount else bal3) bal) bal =
      bal + (((c.foldr (fun b acc => b.transactions ++ acc) []).map
        (specContribution address)).sum) := by
    intro c
    induction c with
    | nil => intro bal; simp
    | cons b bs ih =>
      intro bal
      rw [List.foldl_cons, ih, foldl_balance_txs, List.foldr_cons, List.map_append,
        List.sum_append]
      ring
  rw [main st.chain 0]
  ring

/-! ### Helper lemmas about the registry -/

theorem lookupNft_setOwner_eq (nft_id recipient : String) :
    ∀ (regs : List (String × NftEntry)),
      lookupNft (setOwner regs nft_id recipient) nft_id =
        (lookupNft regs nft_id).map (fun e => { e with owner := recipient }) := by
  intro regs
  induction regs with
  | nil => rfl
  | cons p rest ih =>
    obtain ⟨k, v⟩ := p
    by_cases h : k = nft_id
    · subst h
      rw [setOwner, if_pos rfl, lookupNft, if_pos rfl, lookupNft, if_pos rfl]
      rfl
    · rw [setOwner, if_neg h, lookupNft, if_neg h, lookupNft, if_neg h]
      exact ih

theorem lookupNft_setOwner_ne (nft_id recipient k : String) (hk : k ≠ nft_id) :
    ∀ (regs : List (String × NftEntry)),
      lookupNft (setOwner regs nft_id recipient) k = lookupNft regs k := by
  intro regs
  induction regs with
  | nil => rfl
  | cons p rest ih =>
    obtain ⟨k1, v⟩ := p
    by_cases h : k1 = nft_id
    · have h2 : k1 ≠ k := by rw [h]; exact fun hh => hk hh.symm
      rw [setOwner, if_pos h, lookupNft, if_neg h2, lookupNft, if_neg h2]
    · by_cases h2 : k1 = k
      · rw [setOwner, if_neg h, lookupNft, if_pos h2, lookupNft, if_pos h2]
      · rw [setOwner, if_neg h, lookupNft, if_neg h2, lookupNft, if_neg h2]
        exact ih

/-! ### Concrete hash functions for instantiating the hash parameter -/

/-- Constant block-hash function: every digest is `"00"`, so proof-of-work
at the default difficulty 2 succeeds without any nonce increment. -/
def constHash (_ : BlockHashInput) : String := "00"

/-- Constant transaction-hash function. -/
def constTxHash (_ : TxHashInput) : String := ""

/-- An injective `Nat → String` embedding (unary numeral). -/
def natToStr (n : Nat) : String := String.mk (List.replicate n '1')

theorem natToStr_injective : Function.Injective natToStr := by
  intro a b h
  have h2 : List.replicate a '1' = List.replicate b '1' := by
    injection h
  have h3 := congrArg List.length h2
  simpa using h3

theorem charToNat_injective : Function.Injective Char.toNat := by
  intro a b h
  exact Char.eq_of_val_eq (UInt32.ext h)

/-- Injective code of a string. -/
def strEnc (s : String) : Nat := Encodable.encode (s.data.map Char.toNat)

theorem strEnc_injective : Function.Injective strEnc := by
  intro a b h
  have h1 : a.data.map Char.toNat = b.data.map Char.toNat := Encodable.encode_injective h
  have h2 : a.data = b.data := List.map_injective_iff.mpr charToNat_injective h1
  cases a
  cases b
  exact congrArg String.mk h2

/-- Injective code of an option given one for the element. -/
def optEnc {α : Type} (f : α → Nat) : Option α → Nat
  | none => 0
  | some a => f a + 1

theorem optEnc_injective {α : Type} (f : α → Nat) (hf : Function.Injective f) :
    Function.Injective (optEnc f) := by
  intro a b h
  cases a with
  | none =>
    cases b with
    | none => rfl
    | some b => exact absurd h (by simp [optEnc])
  | some a =>
    cases b with
    | none => exact absurd h (by simp [optEnc])
    | some b =>
      simp only [optEnc, Nat.add_right_cancel_iff] at h
      rw [hf h]

/-- Injective code of a list given one for the elements. -/
def listEnc {α : Type} (f : α → Nat) : List α → Nat
  | [] => 0
  | a :: l => Nat.pair (f a) (listEnc f l) + 1

theorem listEnc_injective {α : Type} (f : α → Nat) (hf : Function.Injective f) :
    Function.Injective (listEnc f) := by
  intro l1
  induction l1 with
  | nil =>
    intro l2 h
    cases l2 with
    | nil => rfl
    | cons b m => exact absurd h (by simp [listEnc])
  | cons a l ih =>
    intro l2 h
    cases l2 with
    | nil => exact absurd h (by simp [listEnc])
    | cons b m =>
      simp only [listEnc, Nat.add_right_cancel_iff, Nat.pair_eq_pair] at h
      rw [hf h.1, ih h.2]

/-- Injective code of an `nft_data` payload. -/
def nftEnc : NftData → Nat
  | .create i n d => Nat.pair 0 (Nat.pair (strEnc i) (Nat.pair (strEnc n) (strEnc d)))
  | .transfer i => Nat.pair 1 (strEnc i)

theorem nftEnc_injective : Function.Injective nftEnc := by
  intro a b h
  cases a with
  | create i1 n1 d1 =>
    cases b with
    | create i2 n2 d2 =>
      simp only [nftEnc, Nat.pair_eq_pair] at h
      rw [NftData.create.injEq]
      exact ⟨strEnc_injective h.2.1, strEnc_injective h.2.2.1, strEnc_injective h.2.2.2⟩
    | transfer i2 =>
      simp only [nftEnc, Nat.pair_eq_pair] at h
      exact absurd h.1 (by omega)
  | transfer i1 =>
    cases b with
    | create i2 n2 d2 =>
      simp only [nftEnc, Nat.pair_eq_pair] at h
      exact absurd h.1 (by omega)
    | transfer i2 =>
      simp only [nftEnc, Nat.pair_eq_pair] at h
      rw [NftData.transfer.injEq]
      exact strEnc_injective h.2

/-- Injective code of a transaction dictionary. -/
def txEnc (t : Transaction) : Nat :=
  Nat.pair (optEnc strEnc t.sender)
    (Nat.pair (strEnc t.recipient)
      (Nat.pair (Encodable.encode t.amount)
        (Nat.pair (optEnc nftEnc t.nft_data)
          (Nat.pair t.timestamp (strEnc t.hash)))))

theorem txEnc_injective : Function.Injective txEnc := by
  intro a b h
  obtain ⟨s1, r1, a1, n1, t1, hh1⟩ := a
  obtain ⟨s2, r2, a2, n2, t2, hh2⟩ := b
  simp only [txEnc, Nat.pair_eq_pair] at h
  obtain ⟨h1, h2, h3, h4, h5, h6⟩ := h
  rw [Transaction.mk.injEq]
  exact ⟨optEnc_injective strEnc strEnc_injective h1, strEnc_injective h2,
    Encodable.encode_injective h3, optEnc_injective nftEnc nftEnc_injective h4,
    h5, strEnc_injective h6⟩

/-- Injective code of the block-hash input. -/
def blockInputEnc (x : BlockHashInput) : Nat :=
  Nat.pair x.index
    (Nat.pair (listEnc txEnc x.transactions)
      (Nat.pair x.timestamp (Nat.pair (strEnc x.previous_hash) x.nonce)))

theorem blockInputEnc_injective : Function.Injective blockInputEnc := by
  intro a b h
  obtain ⟨i1, l1, t1, p1, n1⟩ := a
  obtain ⟨i2, l2, t2, p2, n2⟩ := b
  simp only [blockInputEnc, Nat.pair_eq_pair] at h
  obtain ⟨h1, h2, h3, h4, h5⟩ := h
  rw [BlockHashInput.mk.injEq]
  exact ⟨h1, listEnc_injective txEnc txEnc_injective h2, h3, strEnc_injective h4, h5⟩

/-- An injective block-hash function (unary numeral of the injective code):
a collision-free stand-in for the SHA-256 digest. -/
def injHash (x : BlockHashInput) : String := natToStr (blockInputEnc x)

theorem injHash_injective : Function.Injective injHash :=
  fun _ _ h => blockInputEnc_injective (natToStr_injective h)

/-! ### Summation helpers for balance conservation -/

theorem sum_specContribution_eq_zero (S : Finset String) (t : Transaction)
    (hsend : ∃ s ∈ S, t.sender = some s) (hrec : t.recipient ∈ S) :
    Finset.sum S (fun a => specContribution a t) = 0 := by
  obtain ⟨s0, hs0, hsent⟩ := hsend
  have h1 : Finset.sum S (fun a => specContribution a t) =
      Finset.sum S (fun a => (if t.recipient = a then t.amount else 0)) -
      Finset.sum S (fun a => (if t.sender = some a then t.amount else 0)) := by
    rw [← Finset.sum_sub_distrib]
    rfl
  rw [h1]
  have h2 : Finset.sum S (fun a => (if t.recipient = a then t.amount else 0)) = t.amount := by
    rw [Finset.sum_ite_eq]
    exact if_pos hrec
  have h3 : Finset.sum S (fun a => (if t.sender = some a then t.amount else 0)) = t.amount := by
    have hcong : ∀ a, (if t.sender = some a then t.amount else 0) =
        (if s0 = a then t.amount else 0) := by
      intro a
      rw [hsent]
      by_cases hc : s0 = a
      · rw [if_pos (by rw [hc]), if_pos hc]
      · rw [if_neg (fun hcc => hc (Option.some.inj hcc)), if_neg hc]
    rw [Finset.sum_congr rfl (fun a _ => hcong a), Finset.sum_ite_eq]
    exact if_pos hs0
  rw [h2, h3]
  ring

theorem sum_balance_list_zero (S : Finset String) :
    ∀ (l : List Transaction),
      (∀ t ∈ l, (∃ s ∈ S, t.sender = some s) ∧ t.recipient ∈ S) →
      Finset.sum S (fun a => ((l.map (specContribution a)).sum)) = 0 := by
  intro l
  induction l with
  | nil => intro _; simp
  | cons t ts ih =>
    intro hall
    have h1 : Finset.sum S (fun a => (((t :: ts).map (specContribution a)).sum)) =
        Finset.sum S (fun a => specContribution a t) +
        Finset.sum S (fun a => ((ts.map (specContribution a)).sum)) := by
      rw [← Finset.sum_add_distrib]
      rfl
    rw [h1, sum_specContribution_eq_zero S t (hall t (by simp)).1 (hall t (by simp)).2,
      ih (fun t2 ht2 => hall t2 (by simp [ht2]))]
    ring

/-! ### Witness fixtures -/

/-- Fresh ledger over the constant hash function. -/
def stW0 : ZenChain := ZenChain.init constHash 0

/-- The genesis block of `stW0`. -/
def genW : Block := create_genesis_block constHash 0

/-- The block mined from the empty pool of `stW0` at block-timestamp 5. -/
def minedW : Block := mkBlock constHash 1 [] 5 genW.hash 0

/-- The reward transaction re-seeding the pool, at timestamp 7. -/
def rewardW : Transaction := mkTransaction constTxHash none "miner" 100 none 7

/-- The state after mining `stW0`. -/
def stW1 : ZenChain :=
  { chain := [genW, minedW], difficulty := 2, pending_transactions := [rewardW],
    mining_reward := 100, nft_collections := [] }

/-- Hash function whose digest meets difficulty 2 exactly when the nonce is
positive: forces the mining loop to take one step. -/
def stepHash (x : BlockHashInput) : String := if x.nonce = 0 then "a" else "00"

def bW9 : Block := mkBlock stepHash 3 [] 11 "ph" 0

def bW9m : Block := ⟨3, [], 11, "ph", 1, "00"⟩

/-! ### The claims -/

/-- Claim C10: a freshly constructed ledger has difficulty 2, mining reward
100, an empty pending pool, an empty asset registry, and a chain holding
exactly the genesis block, whose index is 0, whose transaction list is
empty, and whose previous-hash field is the string `"0"`. -/
theorem claim10_init (H : BlockHashInput → String) (ts : Nat) :
    (ZenChain.init H ts).difficulty = 2 ∧
    (ZenChain.init H ts).mining_reward = 100 ∧
    (ZenChain.init H ts).pending_transactions = [] ∧
    (ZenChain.init H ts).nft_collections = [] ∧
    (ZenChain.init H ts).chain = [create_genesis_block H ts] ∧
    (create_genesis_block H ts).index = 0 ∧
    (create_genesis_block H ts).transactions = [] ∧
    (create_genesis_block H ts).previous_hash = "0" :=
  ⟨rfl, rfl, rfl, rfl, rfl, rfl, rfl, rfl⟩

/-- Claim C9: `mine_block` only ever touches the nonce and hash fields:
whenever it returns a block, that block's index, transaction list,
timestamp and previous-hash fields equal those of the input block. -/
theorem claim9_mine_block_frame (H : BlockHashInput → String) (D fuel : Nat) (b b' : Block)
    (h : mine_block H D fuel b = some b') :
    b'.index = b.index ∧ b'.transactions = b.transactions ∧
    b'.timestamp = b.timestamp ∧ b'.previous_hash = b.previous_hash := by
  obtain ⟨-, h2, h3, h4, h5, -⟩ := mine_block_spec H D fuel b b' h
  exact ⟨h2, h3, h4, h5⟩

/-- Witness for C9: a concrete two-iteration mining run that changes nonce
and hash but preserves the other four fields. -/
theorem claim9_witness :
    mine_block stepHash 2 1 bW9 = some bW9m ∧ bW9m.index = bW9.index ∧
    bW9m.transactions = bW9.transactions ∧ bW9m.timestamp = bW9.timestamp ∧
    bW9m.previous_hash = bW9.previous_hash := by
  have h : mine_block stepHash 2 1 bW9 = some bW9m := by decide
  obtain ⟨h1, h2, h3, h4⟩ := claim9_mine_block_frame stepHash 2 1 bW9 bW9m h
  exact ⟨h, h1, h2, h3, h4⟩

/-- Claim C4: whenever `mine_block` terminates, the stored hash equals the
hash recomputed from the block's current fields and its first `D`
characters are all `'0'`; for `D = 0` it succeeds immediately, returning
the block unchanged, so a freshly constructed block keeps its initial
nonce 0. -/
theorem claim4_mine_block_postcondition (H : BlockHashInput → String) :
    (∀ (D fuel : Nat) (b b' : Block), b.hash = calculate_hash H b →
      mine_block H D fuel b = some b' →
      b'.hash = calculate_hash H b' ∧ b'.hash.data.take D = zeroPrefix D) ∧
    (∀ (fuel : Nat) (b : Block), mine_block H 0 fuel b = some b) ∧
    (∀ (fuel i : Nat) (txs : List Transaction) (ts : Nat) (ph : String),
      mine_block H 0 fuel (mkBlock H i txs ts ph 0) = some (mkBlock H i txs ts ph 0) ∧
      (mkBlock H i txs ts ph 0).nonce = 0) := by
  refine ⟨?_, mine_block_zero_difficulty H, ?_⟩
  · intro D fuel b b' hinv h
    obtain ⟨hdiff, -, -, -, -, hhash⟩ := mine_block_spec H D fuel b b' h
    refine ⟨hhash hinv, ?_⟩
    rw [hashMeetsDifficulty] at hdiff
    exact of_decide_eq_true hdiff
  · intro fuel i txs ts ph
    exact ⟨mine_block_zero_difficulty H fuel _, rfl⟩

/-- Witness for C4: mining a concrete fresh block at difficulty 2 with the
constant hash function succeeds at once and the postcondition holds. -/
theorem claim4_witness :
    (mkBlock constHash 0 [] 0 "0" 0).hash =
      calculate_hash constHash (mkBlock constHash 0 [] 0 "0" 0) ∧
    mine_block constHash 2 0 (mkBlock constHash 0 [] 0 "0" 0) =
      some (mkBlock constHash 0 [] 0 "0" 0) ∧
    (mkBlock constHash 0 [] 0 "0" 0).hash.data.take 2 = zeroPrefix 2 := by
  have h : mine_block constHash 2 0 (mkBlock constHash 0 [] 0 "0" 0) =
      some (mkBlock constHash 0 [] 0 "0" 0) := by decide
  exact ⟨rfl, h, ((claim4_mine_block_postcondition constHash).1 2 0 _ _ rfl h).2⟩

/-- Claim C1: whenever `mine_pending_transactions(R)` completes, it has
appended to the chain exactly one new block whose index is the previous
chain length, whose transaction list is the previous pending pool, and
whose previous-hash is the stored hash of the previous chain head, mined
at the configured difficulty; and the pending pool now holds exactly one
transaction with sender `none`, recipient `R` and the fixed mining
reward as amount. -/
theorem claim1_mine_pending (H : BlockHashInput → String) (HT : TxHashInput → String)
    (fuel tb tt : Nat) (R : String) (st st' : ZenChain)
    (h : mine_pending_transactions H HT fuel tb tt R st = some st') :
    (∃ b : Block,
      st'.chain = st.chain ++ [b] ∧
      b.index = st.chain.length ∧
      b.transactions = st.pending_transactions ∧
      (∃ latest, get_latest_block st = some latest ∧ b.previous_hash = latest.hash) ∧
      hashMeetsDifficulty b.hash st.difficulty = true ∧
      b.hash = calculate_hash H b) ∧
    st'.pending_transactions = [mkTransaction HT none R st.mining_reward none tt] ∧
    st'.pending_transactions.map (fun t => (t.sender, t.recipient, t.amount)) =
      [(none, R, st.mining_reward)] := by
  obtain ⟨latest, mined, hl, hmine, hst'⟩ := mine_pending_spec H HT fuel tb tt R st st' h
  obtain ⟨hdiff, hidx, htxs, hts, hprev, hhash⟩ := mine_block_spec H st.difficulty fuel _ _ hmine
  subst hst'
  refine ⟨⟨mined, rfl, ?_, ?_, ⟨latest, hl, ?_⟩, hdiff, hhash rfl⟩, rfl, rfl⟩
  · rw [hidx]
    rfl
  · rw [htxs]
    rfl
  · rw [hprev]
    rfl

/-- Witness for C1: a concrete mining call on a fresh ledger produces the
expected successor state and reward pool. -/
theorem claim1_witness :
    mine_pending_transactions constHash constTxHash 0 5 7 "miner" stW0 = some stW1 ∧
    stW1.pending_transactions = [mkTransaction constTxHash none "miner" 100 none 7] := by
  have h : mine_pending_transactions constHash constTxHash 0 5 7 "miner" stW0 = some stW1 := by
    decide
  exact ⟨h, (claim1_mine_pending constHash constTxHash 0 5 7 "miner" stW0 stW1 h).2.1⟩

/-- Claim C2: every state reachable from a freshly constructed ledger by
the public operations satisfies `is_chain_valid`, and in every such state
each block after the genesis links to its predecessor's stored hash and
stores the hash recomputed from its own fields. -/
theorem claim2_reachable_valid (H : BlockHashInput → String) (HT : TxHashInput → String)
    (st : ZenChain) (h : Reachable H HT st) :
    is_chain_valid H st = true ∧
    ∀ i (hi : i + 1 < st.chain.length),
      (st.chain.get ⟨i + 1, hi⟩).hash = calculate_hash H (st.chain.get ⟨i + 1, hi⟩) ∧
      (st.chain.get ⟨i + 1, hi⟩).previous_hash =
        (st.chain.get ⟨i, Nat.lt_of_succ_lt hi⟩).hash := by
  have hv := (reachable_chain_valid H HT st h).2
  exact ⟨hv, (is_chain_valid_iff H st).mp hv⟩

/-- Witness for C2: a freshly constructed ledger is reachable and valid. -/
theorem claim2_witness : is_chain_valid constHash (ZenChain.init constHash 0) = true :=
  (claim2_reachable_valid constHash constTxHash _ (Reachable.init 0)).1

/-! ### Tampering helpers -/

theorem validChain_get_iff (H : BlockHashInput → String) (c : List Block) :
    validChain H c = true ↔
      ∀ i (hi : i + 1 < c.length),
        (c.get ⟨i + 1, hi⟩).hash = calculate_hash H (c.get ⟨i + 1, hi⟩) ∧
        (c.get ⟨i + 1, hi⟩).previous_hash = (c.get ⟨i, Nat.lt_of_succ_lt hi⟩).hash :=
  is_chain_valid_iff H ⟨c, 0, [], 0, []⟩

theorem validFrom_hash_congr (H : BlockHashInput → String) (p1 p2 : Block)
    (hpp : p1.hash = p2.hash) : ∀ bs, validFrom H p1 bs = validFrom H p2 bs := by
  intro bs
  cases bs with
  | nil => rfl
  | cons b rest =>
    simp only [validFrom]
    rw [hpp]

theorem tamper_breaks_validity (H : BlockHashInput → String)
    (hinj : Function.Injective H) (c : List Block) (k j : Nat) (amt : Int)
    (hvalid : validChain H c = true)
    (hi : k + 1 < c.length)
    (hj : j < (c.get ⟨k + 1, hi⟩).transactions.length)
    (hne : amt ≠ ((c.get ⟨k + 1, hi⟩).transactions.get ⟨j, hj⟩).amount) :
    validChain H (tamperAmount c (k + 1) j amt) = false := by
  have hlc : (tamperAmount c (k + 1) j amt).length = c.length :=
    length_modifyAt _ c (k + 1)
  have hk1' : k + 1 < (tamperAmount c (k + 1) j amt).length := by
    rw [hlc]
    exact hi
  have hB' : (tamperAmount c (k + 1) j amt).get ⟨k + 1, hk1'⟩ =
      { c.get ⟨k + 1, hi⟩ with
        transactions := modifyAt (setAmount amt) (c.get ⟨k + 1, hi⟩).transactions j } := by
    have h2 := get_modifyAt
      (fun b => { b with transactions := modifyAt (setAmount amt) b.transactions j })
      c (k + 1) (k + 1) hk1' hi
    rw [if_pos rfl] at h2
    exact h2
  have hBinv := ((validChain_get_iff H c).mp hvalid k hi).1
  suffices hns : ¬ (∀ i2 (hi2 : i2 + 1 < (tamperAmount c (k + 1) j amt).length),
      ((tamperAmount c (k + 1) j amt).get ⟨i2 + 1, hi2⟩).hash =
        calculate_hash H ((tamperAmount c (k + 1) j amt).get ⟨i2 + 1, hi2⟩) ∧
      ((tamperAmount c (k + 1) j amt).get ⟨i2 + 1, hi2⟩).previous_hash =
        ((tamperAmount c (k + 1) j amt).get ⟨i2, Nat.lt_of_succ_lt hi2⟩).hash) by
    cases hv : validChain H (tamperAmount c (k + 1) j amt) with
    | false => rfl
    | true => exact absurd ((validChain_get_iff H _).mp hv) hns
  intro hall
  have hfail := (hall k hk1').1
  rw [hB'] at hfail
  have h1 : (c.get ⟨k + 1, hi⟩).hash = H (c.get ⟨k + 1, hi⟩).hashInput := hBinv
  have h2 : (c.get ⟨k + 1, hi⟩).hash =
      H ({ c.get ⟨k + 1, hi⟩ with
        transactions := modifyAt (setAmount amt) (c.get ⟨k + 1, hi⟩).transactions j } :
        Block).hashInput := hfail
  have hinput := hinj (h1.symm.trans h2)
  have hT : (c.get ⟨k + 1, hi⟩).transactions =
      modifyAt (setAmount amt) (c.get ⟨k + 1, hi⟩).transactions j :=
    congrArg BlockHashInput.transactions hinput
  have hj2 : j < (modifyAt (setAmount amt) (c.get ⟨k + 1, hi⟩).transactions j).length := by
    rw [length_modifyAt]
    exact hj
  have e3 : (modifyAt (setAmount amt) (c.get ⟨k + 1, hi⟩).transactions j).get ⟨j, hj2⟩ =
      setAmount amt ((c.get ⟨k + 1, hi⟩).transactions.get ⟨j, hj⟩) := by
    have h4 := get_modifyAt (setAmount amt) (c.get ⟨k + 1, hi⟩).transactions j j hj2 hj
    rw [if_pos rfl] at h4
    exact h4
  have e4 : (c.get ⟨k + 1, hi⟩).transactions.get? j =
      (modifyAt (setAmount amt) (c.get ⟨k + 1, hi⟩).transactions j).get? j := by
    rw [← hT]
  rw [List.get?_eq_get hj, List.get?_eq_get hj2, e3] at e4
  have e5 := Option.some.inj e4
  have e6 : ((c.get ⟨k + 1, hi⟩).transactions.get ⟨j, hj⟩).amount = amt :=
    congrArg Transaction.amount e5
  exact hne e6.symm

/-- Claim C3: on a valid chain of length at least 2 (whose genesis has, as
the data model guarantees, an empty transaction list), changing the amount
of any committed transaction without re-mining makes `is_chain_valid`
return false, provided the hash function is collision-free (injective);
moreover `is_chain_valid` returns true exactly when every block from index
1 onward stores the hash recomputed from its fields and links to its
predecessor's stored hash, and the genesis block itself is never
independently validated: only its stored hash enters the scan. -/
theorem claim3_tamper_detection (H : BlockHashInput → String)
    (hinj : Function.Injective H) :
    (∀ (g : Block) (rest : List Block) (d : Nat) (p : List Transaction) (r : Int)
        (reg : List (String × NftEntry)) (i j : Nat) (amt : Int)
        (_hgen : g.transactions = [])
        (_hlen : 2 ≤ (g :: rest).length)
        (_hvalid : is_chain_valid H ⟨g :: rest, d, p, r, reg⟩ = true)
        (hi : i < (g :: rest).length)
        (hj : j < ((g :: rest).get ⟨i, hi⟩).transactions.length),
        amt ≠ (((g :: rest).get ⟨i, hi⟩).transactions.get ⟨j, hj⟩).amount →
        is_chain_valid H ⟨tamperAmount (g :: rest) i j amt, d, p, r, reg⟩ = false) ∧
    (∀ st : ZenChain, is_chain_valid H st = true ↔
      ∀ i (hi : i + 1 < st.chain.length),
        (st.chain.get ⟨i + 1, hi⟩).hash = calculate_hash H (st.chain.get ⟨i + 1, hi⟩) ∧
        (st.chain.get ⟨i + 1, hi⟩).previous_hash =
          (st.chain.get ⟨i, Nat.lt_of_succ_lt hi⟩).hash) ∧
    (∀ (g g' : Block) (rest : List Block) (d : Nat) (p : List Transaction) (r : Int)
        (reg : List (String × NftEntry)), g'.hash = g.hash →
        is_chain_valid H ⟨g' :: rest, d, p, r, reg⟩ =
          is_chain_valid H ⟨g :: rest, d, p, r, reg⟩) := by
  refine ⟨?_, is_chain_valid_iff H, ?_⟩
  · intro g rest d p r reg i j amt hgen hlen hvalid hi hj hne
    cases i with
    | zero =>
      exfalso
      have hg : ((g :: rest).get ⟨0, hi⟩).transactions = [] := hgen
      rw [hg] at hj
      exact Nat.not_lt_zero j hj
    | succ k =>
      exact tamper_breaks_validity H hinj (g :: rest) k j amt hvalid hi hj hne
  · intro g g' rest d p r reg hgg
    show validFrom H g' rest = validFrom H g rest
    exact validFrom_hash_congr H g' g hgg rest

/-- Transaction, genesis and block fixtures for the tampering witness,
built over the injective hash function. -/
def txW3 : Transaction := mkTransaction constTxHash (some "Alice") "Bob" 10 none 3

def genW3 : Block := create_genesis_block injHash 0

def blkW3 : Block := mkBlock injHash 1 [txW3] 4 genW3.hash 0

/-- Witness for C3: tampering the amount of the only committed transaction
of a concrete valid two-block chain invalidates the chain. -/
theorem claim3_witness :
    is_chain_valid injHash ⟨[genW3, blkW3], 2, [], 100, []⟩ = true ∧
    is_chain_valid injHash ⟨tamperAmount [genW3, blkW3] 1 0 (-5), 2, [], 100, []⟩ = false := by
  have hvalid : is_chain_valid injHash ⟨[genW3, blkW3], 2, [], 100, []⟩ = true := by
    show validFrom injHash genW3 [blkW3] = true
    have hc1 : ¬ (blkW3.hash ≠ calculate_hash injHash blkW3) := fun hc => hc rfl
    have hc2 : ¬ (blkW3.previous_hash ≠ genW3.hash) := fun hc => hc rfl
    rw [validFrom, if_neg hc1, if_neg hc2]
    rfl
  refine ⟨hvalid, ?_⟩
  exact (claim3_tamper_detection injHash injHash_injective).1 genW3 [blkW3] 2 [] 100 []
    1 0 (-5) rfl (by decide) hvalid (by decide) (by decide) (by decide)

/-- Claim C5: `get_balance(a)` equals the signed sum, over all committed
transactions, of the amount (added when `a` is the recipient, subtracted
when `a` is the sender); the pending pool contributes nothing; and a
transaction whose sender equals its recipient contributes zero. -/
theorem claim5_get_balance (st : ZenChain) (a : String) :
    get_balance st a = ((committedTxs st).map (specContribution a)).sum ∧
    (∀ p, get_balance { st with pending_transactions := p } a = get_balance st a) ∧
    (∀ t : Transaction, t.sender = some a → t.recipient = a →
      specContribution a t = 0) := by
  refine ⟨get_balance_eq_sum st a, fun p => rfl, ?_⟩
  intro t hs hr
  rw [specContribution, if_pos hr, if_pos hs]
  exact sub_self t.amount

/-- Witness for C5: a concrete self-transfer contributes zero and the
balance ignores a concrete pending pool. -/
theorem claim5_witness :
    specContribution "A" (mkTransaction constTxHash (some "A") "A" 5 none 0) = 0 ∧
    get_balance { stW0 with pending_transactions := [rewardW] } "A" = get_balance stW0 "A" := by
  refine ⟨(claim5_get_balance stW0 "A").2.2 _ rfl rfl, (claim5_get_balance stW0 "A").2.1 _⟩

/-- Claim C8: over a chain whose committed transactions all move value
between addresses of a finite set `S` (every sender present and in `S`,
every recipient in `S`), the balances of the members of `S` sum to zero. -/
theorem claim8_balance_conservation (st : ZenChain) (S : Finset String)
    (hS : ∀ t ∈ committedTxs st, (∃ s ∈ S, t.sender = some s) ∧ t.recipient ∈ S) :
    Finset.sum S (fun a => get_balance st a) = 0 := by
  have h1 : Finset.sum S (fun a => get_balance st a) =
      Finset.sum S (fun a => ((committedTxs st).map (specContribution a)).sum) :=
    Finset.sum_congr rfl (fun a _ => get_balance_eq_sum st a)
  rw [h1]
  exact sum_balance_list_zero S (committedTxs st) hS

/-- Fixtures for the balance-conservation witness. -/
def txW8 : Transaction := mkTransaction constTxHash (some "Alice") "Bob" 10 none 3

def blkW8 : Block := mkBlock constHash 1 [txW8] 4 "x" 0

def stW8 : ZenChain :=
  { chain := [create_genesis_block constHash 0, blkW8], difficulty := 2,
    pending_transactions := [], mining_reward := 100, nft_collections := [] }

/-- Witness for C8: on a concrete chain with one committed Alice-to-Bob
transaction, the two balances cancel. -/
theorem claim8_witness :
    Finset.sum ({"Alice", "Bob"} : Finset String) (fun a => get_balance stW8 a) = 0 := by
  apply claim8_balance_conservation
  intro t ht
  have hct : committedTxs stW8 = [txW8] := rfl
  rw [hct, List.mem_singleton] at ht
  subst ht
  constructor
  · exact ⟨"Alice", by simp, rfl⟩
  · simp only [Finset.mem_insert, Finset.mem_singleton]
    exact Or.inr rfl

/-- Claim C6: `create_nft` fails without any mutation when the identifier
is already registered; otherwise it registers the asset under the given
owner, name, description and creation time, appends exactly one
zero-amount sender-absent transaction carrying the creation payload, and
succeeds. -/
theorem claim6_create_nft (HT : TxHashInput → String) (ts1 ts2 : Nat) (st : ZenChain)
    (owner nft_id nm descr : String) :
    ((lookupNft st.nft_collections nft_id).isSome = true →
      create_nft HT ts1 ts2 st owner nft_id nm descr = (false, st)) ∧
    (lookupNft st.nft_collections nft_id = none →
      create_nft HT ts1 ts2 st owner nft_id nm descr =
        (true, { st with
          nft_collections := st.nft_collections ++ [(nft_id, ⟨owner, nm, descr, ts1⟩)],
          pending_transactions := st.pending_transactions ++
            [mkTransaction HT none owner 0
              (some (NftData.create nft_id nm descr)) ts2] })) := by
  constructor
  · intro h
    rw [create_nft, if_pos h]
  · intro h
    rw [create_nft, if_neg (by rw [h]; simp)]
    rfl

/-- Registry state fixtures for the asset witnesses. -/
def stW6 : ZenChain := ZenChain.init constHash 0

def entW : NftEntry := ⟨"Olive", "Art", "Dsc", 1⟩

def stW6b : ZenChain := { stW6 with nft_collections := [("X", entW)] }

/-- Witness for C6: creating a fresh asset succeeds and mutates registry
and pool; re-creating the same identifier fails and leaves the state
untouched. -/
theorem claim6_witness :
    create_nft constTxHash 1 2 stW6 "Olive" "X" "Art" "Dsc" =
      (true, { stW6 with
        nft_collections := [("X", entW)],
        pending_transactions :=
          [mkTransaction constTxHash none "Olive" 0
            (some (NftData.create "X" "Art" "Dsc")) 2] }) ∧
    create_nft constTxHash 3 4 stW6b "Eve" "X" "Art2" "Dsc2" = (false, stW6b) := by
  constructor
  · exact (claim6_create_nft constTxHash 1 2 stW6 "Olive" "X" "Art" "Dsc").2 rfl
  · exact (claim6_create_nft constTxHash 3 4 stW6b "Eve" "X" "Art2" "Dsc2").1 rfl

/-- Claim C7: `transfer_nft` fails without mutation when the asset is
unknown or the claimed sender is not the registered owner; otherwise it
rewrites the registry entry's owner to the recipient in place (leaving
every other key's entry unchanged), appends exactly one zero-amount
transaction carrying the transfer payload, and succeeds. -/
theorem claim7_transfer_nft (HT : TxHashInput → String) (ts : Nat) (st : ZenChain)
    (sender recipient nft_id : String) :
    (lookupNft st.nft_collections nft_id = none →
      transfer_nft HT ts st sender recipient nft_id = (false, st)) ∧
    (∀ e, lookupNft st.nft_collections nft_id = some e → e.owner ≠ sender →
      transfer_nft HT ts st sender recipient nft_id = (false, st)) ∧
    (∀ e, lookupNft st.nft_collections nft_id = some e → e.owner = sender →
      transfer_nft HT ts st sender recipient nft_id =
        (true, { st with
          nft_collections := setOwner st.nft_collections nft_id recipient,
          pending_transactions := st.pending_transactions ++
            [mkTransaction HT (some sender) recipient 0
              (some (NftData.transfer nft_id)) ts] }) ∧
      lookupNft (setOwner st.nft_collections nft_id recipient) nft_id =
        some { e with owner := recipient } ∧
      (∀ k, k ≠ nft_id →
        lookupNft (setOwner st.nft_collections nft_id recipient) k =
          lookupNft st.nft_collections k)) := by
  refine ⟨?_, ?_, ?_⟩
  · intro h
    rw [transfer_nft, h]
  · intro e he ho
    rw [transfer_nft, he]
    dsimp only
    rw [if_pos ho]
  · intro e he ho
    refine ⟨?_, ?_, fun k hk => lookupNft_setOwner_ne nft_id recipient k hk st.nft_collections⟩
    · rw [transfer_nft, he]
      dsimp only
      rw [if_neg (fun hno => hno ho)]
      rfl
    · rw [lookupNft_setOwner_eq nft_id recipient st.nft_collections, he]
      rfl

/-- Witness for C7: on a registry holding asset `"X"` owned by `"Olive"`,
a transfer by the owner succeeds and rewrites the owner, a transfer by a
non-owner fails, and a transfer of an unknown asset fails. -/
theorem claim7_witness :
    transfer_nft constTxHash 9 stW6b "Olive" "Remy" "X" =
      (true, { stW6b with
        nft_collections := [("X", ⟨"Remy", "Art", "Dsc", 1⟩)],
        pending_transactions :=
          [mkTransaction constTxHash (some "Olive") "Remy" 0
            (some (NftData.transfer "X")) 9] }) ∧
    transfer_nft constTxHash 9 stW6b "Eve" "Remy" "X" = (false, stW6b) ∧
    transfer_nft constTxHash 9 stW6b "Olive" "Remy" "Y" = (false, stW6b) := by
  refine ⟨?_, ?_, ?_⟩
  · exact ((claim7_transfer_nft constTxHash 9 stW6b "Olive" "Remy" "X").2.2 entW rfl rfl).1
  · exact (claim7_transfer_nft constTxHash 9 stW6b "Eve" "Remy" "X").2.1 entW rfl (by decide)
  · exact (claim7_transfer_nft constTxHash 9 stW6b "Olive" "Remy" "Y").1 rfl
